import Mathlib

set_option linter.unusedVariables false

/-!
Shallow embedding of the planky bookmark-management backend
(`src/bookmarks/`): the relational data model (`models.py`), the
query/filter composer (`filters.py`), the tag lifecycle operations
(`tag_views.py`), the bookmark/tag association service (`views.py`) and
the serializer-level tag processing (`serializers.py`).

Machine state is a relational snapshot `DB` (lists of rows).  Django
querysets become list filters; `transaction.atomic` blocks become pure
state transformers that either return a new snapshot or the unchanged
one together with an error.  Timestamp columns (`created_at`,
`updated_at`) are omitted: no claim mentions them.
-/

/- ## String primitives (Python `str.lower`, `str.strip`, `str.split`,
   SQL `icontains`) -/

/-- `isPrefixChars pat l` : `pat` is a prefix of `l` (exact characters). -/
def isPrefixChars : List Char → List Char → Bool
  | [], _ => true
  | _ :: _, [] => false
  | a :: pat, b :: l => a == b && isPrefixChars pat l

/-- `occursIn pat l` : `pat` occurs contiguously somewhere in `l`. -/
def occursIn : List Char → List Char → Bool
  | pat, [] => pat.isEmpty
  | pat, c :: l => isPrefixChars pat (c :: l) || occursIn pat l

/-- Python `s.lower()` (per-character lowering, as Django lowers both sides
of an `icontains` comparison). -/
def lowerStr (s : String) : String := String.mk (s.data.map Char.toLower)

/-- Django `field__icontains=pat`: case-insensitive substring test. -/
def icontains (field pat : String) : Bool :=
  occursIn (lowerStr pat).data (lowerStr field).data

/-- Accumulator pass for `pySplit`: `acc` holds the current word
reversed. -/
def splitWsAux : List Char → List Char → List String
  | [], acc => if acc.isEmpty then [] else [String.mk acc.reverse]
  | c :: rest, acc =>
    if c.isWhitespace then
      if acc.isEmpty then splitWsAux rest []
      else String.mk acc.reverse :: splitWsAux rest []
    else splitWsAux rest (c :: acc)

/-- Python `s.split()` : split on runs of whitespace, dropping empty
pieces. -/
def pySplit (s : String) : List String := splitWsAux s.data []

/-- Python `s.strip()` on a character list: drop whitespace at both ends. -/
def pyStrip (l : List Char) : List Char :=
  ((l.dropWhile Char.isWhitespace).reverse.dropWhile Char.isWhitespace).reverse

/-- Tag-name normalization `name.lower().strip()` as performed by
`Tag.clean` (`models.py`) and by the tag views/serializers. -/
def normalizeName (s : String) : String :=
  String.mk (pyStrip (s.data.map Char.toLower))

/- ## Relational data model (`models.py`) -/

/-- A `Tag` row (`models.py`).  `user` is the owning user's id. -/
structure Tag where
  id : Nat
  user : Nat
  name : String
  is_ai_generated : Bool
deriving DecidableEq, Repr

/-- A `Bookmark` row.  The `notes` field is declared by
`BookmarkSerializer` and targeted by `BookmarkFilter.notes_contains` and
`filter_search`; `models.py` itself omits the column (see the C4
theorem), so the row type here follows the serializer/filter view of the
entity. -/
structure Bookmark where
  id : Nat
  user : Nat
  url : String
  title : String
  description : Option String
  notes : Option String
  favicon_url : Option String
  is_favorite : Bool
  is_pinned : Bool
deriving DecidableEq, Repr

/-- A `BookmarkTag` association row: one (bookmark, tag) link. -/
structure BookmarkTag where
  bookmark : Nat
  tag : Nat
deriving DecidableEq, Repr

/-- A relational snapshot of the store. -/
structure DB where
  tags : List Tag
  bookmarks : List Bookmark
  assocs : List BookmarkTag
deriving DecidableEq, Repr

/-- Store invariants guaranteed by the schema (`models.py`): primary keys
are unique, `(bookmark, tag)` pairs are unique (`unique_together`), and
associations reference existing rows (foreign keys). -/
def WF (db : DB) : Prop :=
  (db.bookmarks.map Bookmark.id).Nodup ∧
  (db.tags.map Tag.id).Nodup ∧
  db.assocs.Nodup ∧
  (∀ a ∈ db.assocs,
    (∃ b ∈ db.bookmarks, b.id = a.bookmark) ∧ (∃ t ∈ db.tags, t.id = a.tag))

instance (db : DB) : Decidable (WF db) := by
  unfold WF; infer_instance

/-- A fresh primary key for a new `Tag` row (auto-increment). -/
def freshTagId (db : DB) : Nat :=
  db.tags.foldr (fun t m => max t.id m) 0 + 1

/-- Error outcomes of the HTTP layer, per the repository's handlers:
`badRequest` (400), `notFound` (404), `conflict` (the 400 "already has
this tag" response of `add_tag`), `duplicateTag` (the `ValidationError`
of `Tag.clean` for an existing (user, name) pair), `validation` (empty
tag name and other `ValidationError`s). -/
inductive Err where
  | badRequest
  | notFound
  | conflict
  | duplicateTag
  | validation
deriving DecidableEq, Repr

/- ## Query/filter composer (`filters.py`) -/

/-- One search term matched against title, description, url, notes and
associated tag names, exactly the five disjuncts built per term in
`BookmarkFilter.filter_search`.  A `NULL` text column never matches
(SQL `LIKE` semantics), which `Option.getD ""` reproduces for the
nonempty terms produced by `pySplit`. -/
def termMatches (db : DB) (b : Bookmark) (term : String) : Bool :=
  icontains b.title term ||
  icontains (b.description.getD "") term ||
  icontains b.url term ||
  icontains (b.notes.getD "") term ||
  db.assocs.any (fun a =>
    a.bookmark == b.id && db.tags.any (fun t => t.id == a.tag && icontains t.name term))

/-- `BookmarkFilter.filter_search` (`filters.py` lines 52-73): empty value
returns the queryset; otherwise the value is split on whitespace and a
single `Q` object is built by `query |= (...)` over the terms, so a row
passes when ANY term matches; with no terms the empty `Q()` keeps every
row.  `.distinct()` is implicit in list semantics. -/
def filter_search (db : DB) (qs : List Bookmark) (value : String) : List Bookmark :=
  if value = "" then qs
  else
    let terms := pySplit value
    if terms.isEmpty then qs
    else qs.filter (fun b => terms.any (fun t => termMatches db b t))

/-- `BookmarkViewSet.get_queryset`: bookmarks scoped to the requesting
user. -/
def userBookmarks (db : DB) (u : Nat) : List Bookmark :=
  db.bookmarks.filter (fun b => b.user == u)

/-- The unified search endpoint: user scoping then `filter_search`. -/
def search (db : DB) (u : Nat) (value : String) : List Bookmark :=
  filter_search db (userBookmarks db u) value

/- ## Tag lifecycle (`tag_views.py`, `models.py` `Tag.clean`) -/

/-- Tag creation (`TagViewSet.create` → `Tag.save` → `Tag.clean`):
normalize the name, reject an empty result, reject an existing
(user, name) pair, otherwise insert a fresh row owned by `u`. -/
def tag_create (db : DB) (u : Nat) (name : String) (is_ai : Bool) :
    DB × Except Err Nat :=
  let nm := normalizeName name
  if nm = "" then (db, Except.error Err.validation)
  else if db.tags.any (fun t => t.user == u && t.name == nm) then
    (db, Except.error Err.duplicateTag)
  else
    let tid := freshTagId db
    ({ db with tags := db.tags ++ [⟨tid, u, nm, is_ai⟩] }, Except.ok tid)

/-- `TagViewSet.bulk_delete` (`tag_views.py` lines 162-190): reject an
empty id list (400); filter the user's tags whose id is in the list and
compare counts — any foreign or unknown id makes the counts differ and
returns 404 with nothing deleted; otherwise delete the matching
associations then the tags inside one transaction, returning the two
counts. -/
def bulk_delete (db : DB) (u : Nat) (tag_ids : List Nat) :
    DB × Except Err (Nat × Nat) :=
  if tag_ids.isEmpty then (db, Except.error Err.badRequest)
  else
    let owned := db.tags.filter (fun t => tag_ids.contains t.id && t.user == u)
    if owned.length ≠ tag_ids.length then (db, Except.error Err.notFound)
    else
      let removed := db.assocs.filter (fun a => owned.any (fun t => t.id == a.tag))
      ({ tags := db.tags.filter (fun t => !(tag_ids.contains t.id && t.user == u)),
         bookmarks := db.bookmarks,
         assocs := db.assocs.filter (fun a => !owned.any (fun t => t.id == a.tag)) },
       Except.ok (owned.length, removed.length))

/-- Inner loop of `TagViewSet.merge`: for each bookmark id carrying the
current source tag, create a (bookmark, target) association unless one
already exists, counting creations. -/
def addTargetAssocs : List BookmarkTag → Nat → List Nat → Nat → List BookmarkTag × Nat
  | assocs, _, [], n => (assocs, n)
  | assocs, tgt, bid :: rest, n =>
    if assocs.any (fun a => a.bookmark == bid && a.tag == tgt) then
      addTargetAssocs assocs tgt rest n
    else
      addTargetAssocs (assocs ++ [⟨bid, tgt⟩]) tgt rest (n + 1)

/-- Outer loop of `TagViewSet.merge` over the source tags: re-associate
the source tag's bookmarks to the target, then delete the source tag's
associations and the source tag row. -/
def mergeLoop : DB → Nat → List Tag → Nat → DB × Nat
  | db, _, [], n => (db, n)
  | db, tgt, s :: rest, n =>
    let bids := (db.assocs.filter (fun a => a.tag == s.id)).map BookmarkTag.bookmark
    let p := addTargetAssocs db.assocs tgt bids n
    mergeLoop
      { tags := db.tags.filter (fun t => t.id != s.id),
        bookmarks := db.bookmarks,
        assocs := p.1.filter (fun a => a.tag != s.id) }
      tgt rest p.2

/-- `TagViewSet.merge` (`tag_views.py` lines 192-259): 400 when the
source list is empty or the target id is missing (`0` stands for the
absent/falsy id); the combined id list is validated by count against the
user's matching tags (404 on mismatch, nothing changed); the target is
fetched (404 if absent); then the merge loop runs in one transaction. -/
def merge (db : DB) (u : Nat) (source_tag_ids : List Nat) (target_tag_id : Nat) :
    DB × Except Err Nat :=
  if source_tag_ids.isEmpty || target_tag_id == 0 then (db, Except.error Err.badRequest)
  else
    let all_tag_ids := source_tag_ids ++ [target_tag_id]
    let owned := db.tags.filter (fun t => all_tag_ids.contains t.id && t.user == u)
    if owned.length ≠ all_tag_ids.length then (db, Except.error Err.notFound)
    else if db.tags.any (fun t => t.id == target_tag_id && t.user == u) then
      let src := db.tags.filter (fun t => source_tag_ids.contains t.id && t.user == u)
      let p := mergeLoop db target_tag_id src 0
      (p.1, Except.ok p.2)
    else (db, Except.error Err.notFound)

/- ## Bookmark views (`views.py`) -/

/-- `BookmarkViewSet.destroy`: the owner-scoped object lookup (404 when
absent or foreign), then `instance.delete()`, which cascades to the
bookmark's `BookmarkTag` rows (`on_delete=CASCADE`). -/
def bookmark_destroy (db : DB) (u : Nat) (bid : Nat) : DB × Except Err Unit :=
  if db.bookmarks.any (fun b => b.id == bid && b.user == u) then
    ({ tags := db.tags,
       bookmarks := db.bookmarks.filter (fun b => b.id != bid),
       assocs := db.assocs.filter (fun a => a.bookmark != bid) },
     Except.ok ())
  else (db, Except.error Err.notFound)

/-- `BookmarkViewSet.add_tag` (`views.py` lines 163-217): owner-scoped
bookmark lookup; 400 when neither reference is given; by id, the tag must
exist for this user (404 otherwise); by name, the name is normalized
(400 when empty) and resolved with get-or-create; a pre-existing
(bookmark, tag) association yields the "already has this tag" response
(`conflict`); otherwise the association row is created.  A present
`tagId` takes priority, as in the source's `if tag_id:` branch (Django
ids are positive, so `some 0` is not modelled as falsy). -/
def add_tag (db : DB) (u : Nat) (bid : Nat)
    (tagId : Option Nat) (tagName : Option String) : DB × Except Err Unit :=
  if !(db.bookmarks.any (fun b => b.id == bid && b.user == u)) then
    (db, Except.error Err.notFound)
  else
    match tagId, tagName with
    | none, none => (db, Except.error Err.badRequest)
    | some tid, _ =>
      if db.tags.any (fun t => t.id == tid && t.user == u) then
        if db.assocs.any (fun a => a.bookmark == bid && a.tag == tid) then
          (db, Except.error Err.conflict)
        else ({ db with assocs := db.assocs ++ [⟨bid, tid⟩] }, Except.ok ())
      else (db, Except.error Err.notFound)
    | none, some nm0 =>
      let nm := normalizeName nm0
      if nm = "" then (db, Except.error Err.badRequest)
      else
        match db.tags.find? (fun t => t.user == u && t.name == nm) with
        | some t =>
          if db.assocs.any (fun a => a.bookmark == bid && a.tag == t.id) then
            (db, Except.error Err.conflict)
          else ({ db with assocs := db.assocs ++ [⟨bid, t.id⟩] }, Except.ok ())
        | none =>
          let tid := freshTagId db
          let db1 : DB := { db with tags := db.tags ++ [⟨tid, u, nm, false⟩] }
          if db1.assocs.any (fun a => a.bookmark == bid && a.tag == tid) then
            (db1, Except.error Err.conflict)
          else ({ db1 with assocs := db1.assocs ++ [⟨bid, tid⟩] }, Except.ok ())

/- ## Serializer tag processing (`serializers.py`) -/

/-- The `tag_names` half of `BookmarkSerializer._process_tags`: each name
is normalized, empty names are skipped, the tag is resolved with
get-or-create scoped to the user, and the association is created with
get-or-create. -/
def processTagNames : DB → Nat → Nat → List String → DB
  | db, _, _, [] => db
  | db, u, bid, nm0 :: rest =>
    let nm := normalizeName nm0
    if nm = "" then processTagNames db u bid rest
    else
      match db.tags.find? (fun t => t.user == u && t.name == nm) with
      | some t =>
        if db.assocs.any (fun a => a.bookmark == bid && a.tag == t.id) then
          processTagNames db u bid rest
        else
          processTagNames { db with assocs := db.assocs ++ [⟨bid, t.id⟩] } u bid rest
      | none =>
        let tid := freshTagId db
        processTagNames
          { tags := db.tags ++ [⟨tid, u, nm, false⟩],
            bookmarks := db.bookmarks,
            assocs := db.assocs ++ [⟨bid, tid⟩] }
          u bid rest

/-- `BookmarkSerializer._process_tags` (`serializers.py` lines 100-130):
clear the bookmark's existing associations, then (when `tag_ids` is
non-empty) re-create associations for exactly the requested ids that
denote tags owned by the user — foreign ids are silently dropped by the
`user=user` filter — then process `tag_names`.  Total: no error path. -/
def process_tags (db : DB) (u : Nat) (bid : Nat)
    (tag_ids : List Nat) (tag_names : List String) : DB :=
  let db0 : DB := { db with assocs := db.assocs.filter (fun a => a.bookmark != bid) }
  let db1 : DB :=
    if tag_ids.isEmpty then db0
    else
      let valid := (db0.tags.filter (fun t => tag_ids.contains t.id && t.user == u)).map Tag.id
      { db0 with assocs := db0.assocs ++ valid.map (fun tid => ⟨bid, tid⟩) }
  if tag_names.isEmpty then db1 else processTagNames db1 u bid tag_names

/- ## Field inventories for the `notes` column (`models.py`,
     `serializers.py`, `filters.py`) -/

/-- The column names declared on the `Bookmark` model (`models.py` lines
82-99), in source order. -/
def bookmarkModelFields : List String :=
  ["url", "title", "description", "favicon_url", "created_at", "updated_at",
   "user", "is_favorite", "is_pinned", "tags"]

/-- `BookmarkSerializer.Meta.fields` (`serializers.py` lines 62-66). -/
def bookmarkSerializerFields : List String :=
  ["id", "url", "title", "description", "notes", "favicon_url",
   "created_at", "updated_at", "is_favorite", "is_pinned",
   "tags", "tag_ids", "tag_names"]

/-- The model field targeted by `BookmarkFilter.notes_contains`
(`filters.py` line 24, `field_name='notes'`). -/
def notesFilterFieldName : String := "notes"

/-- The model fields referenced by the `Q` objects of `filter_search`
(`filters.py` lines 64-71). -/
def searchFilterFieldNames : List String :=
  ["title", "description", "url", "notes", "bookmark_tags__tag__name"]

/-- The cross-user safety invariant: every association links a bookmark
and a tag owned by the same user (stated through the id-matching rows,
so it is meaningful under `WF`'s unique primary keys). -/
def assocUsersOk (db : DB) : Prop :=
  ∀ a ∈ db.assocs, ∀ b ∈ db.bookmarks, ∀ t ∈ db.tags,
    b.id = a.bookmark → t.id = a.tag → b.user = t.user

instance (db : DB) : Decidable (assocUsersOk db) := by
  unfold assocUsersOk; infer_instance

/- ## Concrete fixtures (one store per claim, used by the closed
     witness/counterexample theorems) -/

/-- C1: a bookmark whose title holds "foo" and nothing holding "bar". -/
def c1bk : Bookmark := ⟨10, 0, "http://x", "foo site", none, none, none, false, false⟩

/-- C1: store of user 0 with the single bookmark `c1bk` and no tags. -/
def c1db : DB := ⟨[], [c1bk], []⟩

/-- C2: user 1 with tags dev(1), coding(2), programming(3) and bookmark
10 tagged dev and coding. -/
def c2db : DB :=
  ⟨[⟨1, 1, "dev", false⟩, ⟨2, 1, "coding", false⟩, ⟨3, 1, "programming", false⟩],
   [⟨10, 1, "http://x", "X", none, none, none, false, false⟩],
   [⟨10, 1⟩, ⟨10, 2⟩]⟩

/-- C3: user 1 owns tags 1 and 2 (both on bookmark 10); user 2 owns
tag 3. -/
def c3db : DB :=
  ⟨[⟨1, 1, "a", false⟩, ⟨2, 1, "b", false⟩, ⟨3, 2, "c", false⟩],
   [⟨10, 1, "http://x", "X", none, none, none, false, false⟩],
   [⟨10, 1⟩, ⟨10, 2⟩]⟩

/-- C5: user 1 with tag 7 and bookmark 10 carrying no associations. -/
def c5db : DB :=
  ⟨[⟨7, 1, "t", false⟩],
   [⟨10, 1, "http://x", "X", none, none, none, false, false⟩],
   []⟩

/-- C6: user 1 already owns the tag named "work"; user 2 owns nothing. -/
def c6db : DB := ⟨[⟨1, 1, "work", false⟩], [], []⟩

/-- C8: one tag on two bookmarks; deleting bookmark 10 must keep the tag
and bookmark 11's association. -/
def c8db : DB :=
  ⟨[⟨1, 1, "t", false⟩],
   [⟨10, 1, "http://x", "X", none, none, none, false, false⟩,
    ⟨11, 1, "http://y", "Y", none, none, none, false, false⟩],
   [⟨10, 1⟩, ⟨11, 1⟩]⟩

/-- C9: user 1 with tags 1 and 2 and bookmark 10 tagged 1. -/
def c9db : DB :=
  ⟨[⟨1, 1, "a", false⟩, ⟨2, 1, "b", false⟩],
   [⟨10, 1, "http://x", "X", none, none, none, false, false⟩],
   [⟨10, 1⟩]⟩

/- ## Helper lemmas -/

theorem toNat_ofNat_valid {n : Nat} (h : n.isValidChar) : (Char.ofNat n).toNat = n := by
  unfold Char.ofNat
  rw [dif_pos h]
  rfl

theorem toLower_toLower (c : Char) : Char.toLower (Char.toLower c) = Char.toLower c := by
  simp only [Char.toLower]
  by_cases h : c.toNat ≥ 65 ∧ c.toNat ≤ 90
  · rw [if_pos h]
    have hv : (c.toNat + 32).isValidChar := Or.inl (by omega)
    rw [toNat_ofNat_valid hv, if_neg (by omega)]
  · rw [if_neg h, if_neg h]

theorem map_eq_self_of_forall {α : Type} {f : α → α} :
    ∀ {l : List α}, (∀ c ∈ l, f c = c) → l.map f = l
  | [], _ => rfl
  | c :: l, h => by
    simp only [List.map_cons]
    rw [h c (by simp), map_eq_self_of_forall (fun x hx => h x (by simp [hx]))]

theorem mem_of_mem_pyStrip {c : Char} {l : List Char} (h : c ∈ pyStrip l) : c ∈ l := by
  unfold pyStrip at h
  rw [List.mem_reverse] at h
  have h2 := (List.dropWhile_sublist _).subset h
  rw [List.mem_reverse] at h2
  exact (List.dropWhile_sublist _).subset h2

theorem dropWhile_eq_self_of_prefix {α : Type} {p : α → Bool} {B A : List α}
    (hpre : B <+: A) (hA : A.dropWhile p = A) : B.dropWhile p = B := by
  obtain ⟨t, rfl⟩ := hpre
  cases B with
  | nil => simp
  | cons b bs =>
    have hb : p b = false := by
      by_contra hpb
      rw [Bool.not_eq_false] at hpb
      rw [List.cons_append, List.dropWhile_cons_of_pos hpb] at hA
      have hle := (List.dropWhile_sublist (l := bs ++ t) p).length_le
      rw [hA] at hle
      simp at hle
    rw [List.dropWhile_cons_of_neg (by simp [hb])]

theorem pyStrip_eq_rdrop (l : List Char) :
    pyStrip l = List.rdropWhile Char.isWhitespace (List.dropWhile Char.isWhitespace l) := rfl

theorem pyStrip_idem (l : List Char) : pyStrip (pyStrip l) = pyStrip l := by
  rw [pyStrip_eq_rdrop, pyStrip_eq_rdrop]
  have h1 : List.dropWhile Char.isWhitespace
      (List.rdropWhile Char.isWhitespace (List.dropWhile Char.isWhitespace l)) =
      List.rdropWhile Char.isWhitespace (List.dropWhile Char.isWhitespace l) :=
    dropWhile_eq_self_of_prefix (List.rdropWhile_prefix _ _)
      (List.dropWhile_idempotent _ _)
  rw [h1, List.rdropWhile_idempotent]

/- ## Claim theorems -/

/-- C7: tag-name normalization (lower-case then trim, as in `Tag.clean`)
is idempotent: `normalize(normalize(n)) = normalize(n)` for every
string `n`. -/
theorem normalizeName_idempotent (n : String) :
    normalizeName (normalizeName n) = normalizeName n := by
  unfold normalizeName
  congr 1
  have hdata : (String.mk (pyStrip (n.data.map Char.toLower))).data
      = pyStrip (n.data.map Char.toLower) := rfl
  rw [hdata]
  have hmap : (pyStrip (n.data.map Char.toLower)).map Char.toLower
      = pyStrip (n.data.map Char.toLower) := by
    apply map_eq_self_of_forall
    intro c hc
    obtain ⟨c', _, rfl⟩ := List.mem_map.mp (mem_of_mem_pyStrip hc)
    exact toLower_toLower c'
  rw [hmap, pyStrip_idem]

/-- C4: the `notes` column is declared by `BookmarkSerializer` and is the
target of `BookmarkFilter.notes_contains`, but it is absent from the
`Bookmark` model's field list in `models.py` — the ORM therefore has no
`notes` column to persist or filter on, contradicting the spec and the
rest of the code. -/
theorem notes_field_missing_from_model :
    notesFilterFieldName ∈ bookmarkSerializerFields ∧
    notesFilterFieldName ∈ searchFilterFieldNames ∧
    notesFilterFieldName ∉ bookmarkModelFields := by decide

/-- C8: deleting a bookmark removes exactly the association rows whose
bookmark it is; every `Tag` row and every other bookmark's associations
are unchanged (and the operation succeeds for the owner). -/
theorem bookmark_destroy_frame (db : DB) (u bid : Nat)
    (hb : ∃ b ∈ db.bookmarks, b.id = bid ∧ b.user = u) :
    (bookmark_destroy db u bid).2 = Except.ok () ∧
    (bookmark_destroy db u bid).1.tags = db.tags ∧
    (∀ a : BookmarkTag, a ∈ (bookmark_destroy db u bid).1.assocs ↔
        a ∈ db.assocs ∧ a.bookmark ≠ bid) ∧
    (∀ b : Bookmark, b ∈ (bookmark_destroy db u bid).1.bookmarks ↔
        b ∈ db.bookmarks ∧ b.id ≠ bid) := by
  have hany : db.bookmarks.any (fun b => b.id == bid && b.user == u) = true := by
    rw [List.any_eq_true]
    obtain ⟨b, hbm, hbi, hbu⟩ := hb
    exact ⟨b, hbm, by simp [hbi, hbu]⟩
  unfold bookmark_destroy
  rw [if_pos hany]
  refine ⟨rfl, rfl, ?_, ?_⟩
  · intro a
    simp [List.mem_filter]
  · intro b
    simp [List.mem_filter]

/-- C8 witness: in `c8db`, destroying bookmark 10 keeps the tag row and
bookmark 11's association while removing both rows of bookmark 10. -/
theorem bookmark_destroy_frame_witness :
    (bookmark_destroy c8db 1 10).2 = Except.ok () ∧
    (bookmark_destroy c8db 1 10).1.tags = c8db.tags ∧
    (∀ a : BookmarkTag, a ∈ (bookmark_destroy c8db 1 10).1.assocs ↔
        a ∈ c8db.assocs ∧ a.bookmark ≠ 10) ∧
    (∀ b : Bookmark, b ∈ (bookmark_destroy c8db 1 10).1.bookmarks ↔
        b ∈ c8db.bookmarks ∧ b.id ≠ 10) :=
  bookmark_destroy_frame c8db 1 10 (by decide)

/-- C1 counterexample: searching user 0's store for "foo bar" returns the
bookmark `c1bk` although the term "bar" matches none of its fields — the
claim's AND-combination (and its "matching only one of two terms is not
returned") is false of `filter_search`, which OR-combines the terms. -/
theorem search_and_counterexample :
    c1bk ∈ search c1db 0 "foo bar" ∧
    "bar" ∈ pySplit "foo bar" ∧
    termMatches c1db c1bk "bar" = false := by decide

/-- C1 (amended): for a search string with at least one whitespace-separated
term, the unified search returns exactly the user's bookmarks for which AT
LEAST ONE term matches one of title, description, url, notes or an
associated tag name (case-insensitive substring) — the terms are
OR-combined. -/
theorem filter_search_or_semantics (db : DB) (u : Nat) (value : String)
    (b : Bookmark) (hterms : pySplit value ≠ []) :
    b ∈ search db u value ↔
      b ∈ db.bookmarks ∧ b.user = u ∧ ∃ t ∈ pySplit value, termMatches db b t := by
  have hv : value ≠ "" := by
    intro h
    rw [h] at hterms
    exact hterms rfl
  have hie : ¬((pySplit value).isEmpty = true) := by
    simpa [List.isEmpty_iff] using hterms
  unfold search
  rw [show filter_search db (userBookmarks db u) value
      = (userBookmarks db u).filter (fun b => (pySplit value).any fun t => termMatches db b t) from by
    unfold filter_search
    rw [if_neg hv]
    exact if_neg hie]
  simp only [List.mem_filter, List.any_eq_true, userBookmarks, beq_iff_eq]
  tauto

/-- C1 witness: the amended OR-characterization evaluated on `c1db` for
the two-term search "foo bar" at bookmark `c1bk`. -/
theorem filter_search_or_semantics_witness :
    c1bk ∈ search c1db 0 "foo bar" ↔
      c1bk ∈ c1db.bookmarks ∧ c1bk.user = 0 ∧
        ∃ t ∈ pySplit "foo bar", termMatches c1db c1bk t :=
  filter_search_or_semantics c1db 0 "foo bar" c1bk (by decide)

/-- C5: with the bookmark and tag owned by the user and no existing
association, the first `add_tag` by id succeeds (creating the
association), the second fails with the conflict response leaving the
state unchanged, and the bookmark ends with exactly one association to
that tag. -/
theorem add_tag_twice_conflict (db : DB) (u bid tid : Nat)
    (hb : ∃ b ∈ db.bookmarks, b.id = bid ∧ b.user = u)
    (ht : ∃ t ∈ db.tags, t.id = tid ∧ t.user = u)
    (hno : (⟨bid, tid⟩ : BookmarkTag) ∉ db.assocs) :
    (add_tag db u bid (some tid) none).2 = Except.ok () ∧
    (add_tag (add_tag db u bid (some tid) none).1 u bid (some tid) none).2
      = Except.error Err.conflict ∧
    (add_tag (add_tag db u bid (some tid) none).1 u bid (some tid) none).1
      = (add_tag db u bid (some tid) none).1 ∧
    (add_tag db u bid (some tid) none).1.assocs.count ⟨bid, tid⟩ = 1 := by
  have hbany : db.bookmarks.any (fun b => b.id == bid && b.user == u) = true := by
    rw [List.any_eq_true]
    obtain ⟨b, hbm, hbi, hbu⟩ := hb
    exact ⟨b, hbm, by simp [hbi, hbu]⟩
  have htany : db.tags.any (fun t => t.id == tid && t.user == u) = true := by
    rw [List.any_eq_true]
    obtain ⟨t, htm, hti, htu⟩ := ht
    exact ⟨t, htm, by simp [hti, htu]⟩
  have hnoany : db.assocs.any (fun a => a.bookmark == bid && a.tag == tid) = false := by
    rw [List.any_eq_false]
    intro a ham
    obtain ⟨ab, at'⟩ := a
    simp only [Bool.and_eq_true, beq_iff_eq, not_and]
    intro h1 h2
    exact hno (by rw [← h1, ← h2]; exact ham)
  have h1 : add_tag db u bid (some tid) none
      = ({ db with assocs := db.assocs ++ [⟨bid, tid⟩] }, Except.ok ()) := by
    unfold add_tag
    rw [hbany]
    simp only [Bool.not_true, Bool.false_eq_true, if_false, htany, if_true, hnoany]
  have h2 : (add_tag db u bid (some tid) none).1.assocs
      = db.assocs ++ [⟨bid, tid⟩] := by rw [h1]
  have hbany2 : ({ db with assocs := db.assocs ++ [⟨bid, tid⟩] } : DB).bookmarks.any
      (fun b => b.id == bid && b.user == u) = true := hbany
  have htany2 : ({ db with assocs := db.assocs ++ [⟨bid, tid⟩] } : DB).tags.any
      (fun t => t.id == tid && t.user == u) = true := htany
  have hyes : (db.assocs ++ [(⟨bid, tid⟩ : BookmarkTag)]).any
      (fun a => a.bookmark == bid && a.tag == tid) = true := by
    rw [List.any_eq_true]
    exact ⟨(⟨bid, tid⟩ : BookmarkTag), by simp, by simp⟩
  have h3 : add_tag ({ db with assocs := db.assocs ++ [⟨bid, tid⟩] } : DB) u bid (some tid) none
      = (({ db with assocs := db.assocs ++ [⟨bid, tid⟩] } : DB), Except.error Err.conflict) := by
    unfold add_tag
    rw [hbany2]
    simp only [Bool.not_true, Bool.false_eq_true, if_false, htany2, if_true, hyes]
  rw [h1]
  refine ⟨rfl, ?_, ?_, ?_⟩
  · simp only [h3]
  · simp only [h3]
  · simp only [List.count_append, List.count_eq_zero.mpr hno, List.count_singleton_self]

/-- C6: creating a tag whose normalized name coincides with the
normalized name of one of user A's stored tags fails with the duplicate
error and leaves the store unchanged, while creating the same normalized
name for a different user B (who has no such tag) succeeds. -/
theorem tag_create_duplicate_per_user (db : DB) (uA uB : Nat) (n2 : String)
    (hnorm : ∀ t ∈ db.tags, normalizeName t.name = t.name)
    (hA : ∃ t ∈ db.tags, t.user = uA ∧ normalizeName t.name = normalizeName n2)
    (hB : ¬ ∃ t ∈ db.tags, t.user = uB ∧ t.name = normalizeName n2)
    (hAB : uA ≠ uB) (hne : normalizeName n2 ≠ "") :
    tag_create db uA n2 false = (db, Except.error Err.duplicateTag) ∧
    ∃ tid, (tag_create db uB n2 false).2 = Except.ok tid := by
  have hAany : db.tags.any (fun t => t.user == uA && t.name == normalizeName n2) = true := by
    rw [List.any_eq_true]
    obtain ⟨t, htm, htu, htn⟩ := hA
    refine ⟨t, htm, ?_⟩
    have hn := hnorm t htm
    rw [← hn]
    simp [htu, htn]
  have hBany : db.tags.any (fun t => t.user == uB && t.name == normalizeName n2) = false := by
    rw [List.any_eq_false]
    intro t htm
    simp only [Bool.and_eq_true, beq_iff_eq, not_and]
    intro h1 h2
    exact hB ⟨t, htm, h1, h2⟩
  constructor
  · simp only [tag_create]
    rw [if_neg hne, hAany]
    simp
  · refine ⟨freshTagId db, ?_⟩
    simp only [tag_create]
    rw [if_neg hne, hBany]
    simp

/-- C5 witness: in `c5db`, adding tag 7 to bookmark 10 twice — first ok,
then conflict, one association. -/
theorem add_tag_twice_conflict_witness :
    (add_tag c5db 1 10 (some 7) none).2 = Except.ok () ∧
    (add_tag (add_tag c5db 1 10 (some 7) none).1 1 10 (some 7) none).2
      = Except.error Err.conflict ∧
    (add_tag (add_tag c5db 1 10 (some 7) none).1 1 10 (some 7) none).1
      = (add_tag c5db 1 10 (some 7) none).1 ∧
    (add_tag c5db 1 10 (some 7) none).1.assocs.count ⟨10, 7⟩ = 1 :=
  add_tag_twice_conflict c5db 1 10 7 (by decide) (by decide) (by decide)

/-- C6 witness: user 1 already holds "work" (`c6db`), so creating
"Work " for user 1 is rejected as a duplicate while creating it for
user 2 succeeds. -/
theorem tag_create_duplicate_per_user_witness :
    tag_create c6db 1 "Work " false = (c6db, Except.error Err.duplicateTag) ∧
    ∃ tid, (tag_create c6db 2 "Work " false).2 = Except.ok tid :=
  tag_create_duplicate_per_user c6db 1 2 "Work " (by decide) (by decide)
    (by decide) (by decide) (by decide)

/-- The user-and-id filter over the tag table keeps distinct primary
keys. -/
theorem filter_owned_map_nodup (db : DB) (u : Nat) (p : Tag → Bool)
    (hnd : (db.tags.map Tag.id).Nodup) :
    ((db.tags.filter p).map Tag.id).Nodup :=
  List.Nodup.sublist (List.Sublist.map Tag.id (List.filter_sublist db.tags)) hnd

/-- When every requested id denotes a tag of user `u`, the validation
filter of `bulk_delete`/`merge` has exactly as many rows as ids. -/
theorem filter_owned_length_eq (db : DB) (u : Nat) (ids : List Nat)
    (hnd : (db.tags.map Tag.id).Nodup) (hids : ids.Nodup)
    (hown : ∀ i ∈ ids, ∃ t ∈ db.tags, t.id = i ∧ t.user = u) :
    (db.tags.filter (fun t => ids.contains t.id && t.user == u)).length = ids.length := by
  have hmn : ((db.tags.filter (fun t => ids.contains t.id && t.user == u)).map Tag.id).Nodup :=
    filter_owned_map_nodup db u _ hnd
  have hiff : ∀ x, x ∈ (db.tags.filter (fun t => ids.contains t.id && t.user == u)).map Tag.id
      ↔ x ∈ ids := by
    intro x
    constructor
    · intro hx
      obtain ⟨t, htf, rfl⟩ := List.mem_map.mp hx
      have hc := (List.mem_filter.mp htf).2
      simp only [Bool.and_eq_true, List.elem_iff] at hc
      exact hc.1
    · intro hx
      obtain ⟨t, htm, hti, htu⟩ := hown x hx
      refine List.mem_map.mpr ⟨t, List.mem_filter.mpr ⟨htm, ?_⟩, hti⟩
      simp only [Bool.and_eq_true, List.elem_iff, beq_iff_eq]
      exact ⟨by rw [hti]; exact hx, htu⟩
  have hperm : List.Perm
      ((db.tags.filter (fun t => ids.contains t.id && t.user == u)).map Tag.id) ids :=
    (List.perm_ext_iff_of_nodup hmn hids).mpr hiff
  have hl := hperm.length_eq
  rwa [List.length_map] at hl

/-- When some requested id denotes no tag of user `u`, the validation
filter comes up short. -/
theorem filter_owned_length_lt (db : DB) (u : Nat) (ids : List Nat) (x : Nat)
    (hnd : (db.tags.map Tag.id).Nodup) (hids : ids.Nodup) (hx : x ∈ ids)
    (hnotown : ¬ ∃ t ∈ db.tags, t.id = x ∧ t.user = u) :
    (db.tags.filter (fun t => ids.contains t.id && t.user == u)).length < ids.length := by
  have hmn : ((db.tags.filter (fun t => ids.contains t.id && t.user == u)).map Tag.id).Nodup :=
    filter_owned_map_nodup db u _ hnd
  have hsub : (db.tags.filter (fun t => ids.contains t.id && t.user == u)).map Tag.id
      ⊆ ids.erase x := by
    intro y hy
    obtain ⟨t, htf, rfl⟩ := List.mem_map.mp hy
    obtain ⟨htm, hc⟩ := List.mem_filter.mp htf
    simp only [Bool.and_eq_true, List.elem_iff, beq_iff_eq] at hc
    rw [hids.mem_erase_iff]
    refine ⟨?_, hc.1⟩
    intro heq
    exact hnotown ⟨t, htm, heq, hc.2⟩
  have hsp := List.subperm_of_subset hmn hsub
  have hle := hsp.length_le
  rw [List.length_map] at hle
  rw [List.length_erase_of_mem hx] at hle
  have hpos : 0 < ids.length := List.length_pos_of_mem hx
  omega

/-- Converse of the validation count check: if the filter has exactly as
many rows as requested ids, the ids are distinct and each one denotes a
tag of user `u`. -/
theorem owned_length_elim (db : DB) (u : Nat) (ids : List Nat)
    (hnd : (db.tags.map Tag.id).Nodup)
    (hlen : (db.tags.filter (fun t => ids.contains t.id && t.user == u)).length = ids.length) :
    ids.Nodup ∧ ∀ i ∈ ids, ∃ t ∈ db.tags, t.id = i ∧ t.user = u := by
  have hmn : ((db.tags.filter (fun t => ids.contains t.id && t.user == u)).map Tag.id).Nodup :=
    filter_owned_map_nodup db u _ hnd
  have hsub : (db.tags.filter (fun t => ids.contains t.id && t.user == u)).map Tag.id ⊆ ids := by
    intro y hy
    obtain ⟨t, htf, rfl⟩ := List.mem_map.mp hy
    have hc := (List.mem_filter.mp htf).2
    simp only [Bool.and_eq_true, List.elem_iff] at hc
    exact hc.1
  have hsp := List.subperm_of_subset hmn hsub
  have hperm : List.Perm
      ((db.tags.filter (fun t => ids.contains t.id && t.user == u)).map Tag.id) ids := by
    refine hsp.perm_of_length_le ?_
    rw [List.length_map]
    omega
  constructor
  · exact hperm.nodup_iff.mp hmn
  · intro i hi
    have hmemm : i ∈ (db.tags.filter (fun t => ids.contains t.id && t.user == u)).map Tag.id :=
      hperm.mem_iff.mpr hi
    obtain ⟨t, htf, rfl⟩ := List.mem_map.mp hmemm
    obtain ⟨htm, hc⟩ := List.mem_filter.mp htf
    simp only [Bool.and_eq_true, List.elem_iff, beq_iff_eq] at hc
    exact ⟨t, htm, rfl, hc.2⟩

/-- Under ownership of every requested id, the row-level filter condition
is equivalent to plain id membership. -/
theorem owned_cond_iff (db : DB) (u : Nat) (ids : List Nat)
    (hnd : (db.tags.map Tag.id).Nodup)
    (hown : ∀ i ∈ ids, ∃ t ∈ db.tags, t.id = i ∧ t.user = u) :
    ∀ t ∈ db.tags, ((ids.contains t.id && t.user == u) = true ↔ t.id ∈ ids) := by
  intro t htm
  constructor
  · intro hc
    simp only [Bool.and_eq_true, List.elem_iff] at hc
    exact hc.1
  · intro hmem
    obtain ⟨t', ht'm, ht'i, ht'u⟩ := hown t.id hmem
    have heq : t' = t := List.inj_on_of_nodup_map hnd ht'm htm ht'i
    subst heq
    simp only [Bool.and_eq_true, List.elem_iff, beq_iff_eq]
    exact ⟨hmem, ht'u⟩

/-- Under ownership of every requested id, an association is targeted by
the deletion exactly when its tag id is among the requested ids. -/
theorem owned_any_iff (db : DB) (u : Nat) (ids : List Nat) (x : Nat)
    (hnd : (db.tags.map Tag.id).Nodup)
    (hown : ∀ i ∈ ids, ∃ t ∈ db.tags, t.id = i ∧ t.user = u) :
    ((db.tags.filter (fun t => ids.contains t.id && t.user == u)).any
        (fun t => t.id == x) = true ↔ x ∈ ids) := by
  constructor
  · intro h
    rw [List.any_eq_true] at h
    obtain ⟨t, htf, hti⟩ := h
    obtain ⟨htm, hc⟩ := List.mem_filter.mp htf
    rw [beq_iff_eq] at hti
    subst hti
    exact (owned_cond_iff db u ids hnd hown t htm).mp hc
  · intro hx
    obtain ⟨t', ht'm, ht'i, ht'u⟩ := hown x hx
    rw [List.any_eq_true]
    refine ⟨t', List.mem_filter.mpr ⟨ht'm, ?_⟩, by simp [ht'i]⟩
    exact (owned_cond_iff db u ids hnd hown t' ht'm).mpr (by rw [ht'i]; exact hx)

/-- C3: for a non-empty set of tag ids, `bulk_delete` with any id not
owned by the user fails with `notFound` leaving the store untouched;
with all ids owned it succeeds and removes exactly the named tags and
exactly their associations. -/
theorem bulk_delete_atomic (db : DB) (u : Nat) (tag_ids : List Nat)
    (hWF : WF db) (hids : tag_ids.Nodup) (hne : tag_ids ≠ []) :
    ((∃ x ∈ tag_ids, ¬ ∃ t ∈ db.tags, t.id = x ∧ t.user = u) →
        bulk_delete db u tag_ids = (db, Except.error Err.notFound)) ∧
    ((∀ i ∈ tag_ids, ∃ t ∈ db.tags, t.id = i ∧ t.user = u) →
        (∃ r, (bulk_delete db u tag_ids).2 = Except.ok r) ∧
        (∀ t : Tag, t ∈ (bulk_delete db u tag_ids).1.tags ↔
            t ∈ db.tags ∧ t.id ∉ tag_ids) ∧
        (∀ a : BookmarkTag, a ∈ (bulk_delete db u tag_ids).1.assocs ↔
            a ∈ db.assocs ∧ a.tag ∉ tag_ids) ∧
        (bulk_delete db u tag_ids).1.bookmarks = db.bookmarks) := by
  obtain ⟨hbn, htn, han, href⟩ := hWF
  have hnemp : ¬(tag_ids.isEmpty = true) := by
    simp [List.isEmpty_iff, hne]
  constructor
  · rintro ⟨x, hx, hnot⟩
    have hlt := filter_owned_length_lt db u tag_ids x htn hids hx hnot
    simp only [bulk_delete]
    rw [if_neg hnemp, if_pos (Nat.ne_of_lt hlt)]
  · intro hown
    have hlen := filter_owned_length_eq db u tag_ids htn hids hown
    have hred : bulk_delete db u tag_ids =
        ({ tags := db.tags.filter (fun t => !(tag_ids.contains t.id && t.user == u)),
           bookmarks := db.bookmarks,
           assocs := db.assocs.filter (fun a =>
             !(db.tags.filter (fun t => tag_ids.contains t.id && t.user == u)).any
               (fun t => t.id == a.tag)) },
         Except.ok ((db.tags.filter (fun t => tag_ids.contains t.id && t.user == u)).length,
           (db.assocs.filter (fun a =>
             (db.tags.filter (fun t => tag_ids.contains t.id && t.user == u)).any
               (fun t => t.id == a.tag))).length)) := by
      simp only [bulk_delete]
      rw [if_neg hnemp, if_neg (by omega)]
    rw [hred]
    refine ⟨⟨_, rfl⟩, ?_, ?_, rfl⟩
    · intro t
      simp only [List.mem_filter, Bool.not_eq_true']
      constructor
      · rintro ⟨htm, hcond⟩
        refine ⟨htm, fun hmem => ?_⟩
        rw [(owned_cond_iff db u tag_ids htn hown t htm).mpr hmem] at hcond
        cases hcond
      · rintro ⟨htm, hnmem⟩
        refine ⟨htm, ?_⟩
        rw [← Bool.not_eq_true]
        intro hc
        exact hnmem ((owned_cond_iff db u tag_ids htn hown t htm).mp hc)
    · intro a
      simp only [List.mem_filter, Bool.not_eq_true']
      constructor
      · rintro ⟨ham, hcond⟩
        refine ⟨ham, fun hmem => ?_⟩
        rw [(owned_any_iff db u tag_ids a.tag htn hown).mpr hmem] at hcond
        cases hcond
      · rintro ⟨ham, hnmem⟩
        refine ⟨ham, ?_⟩
        rw [← Bool.not_eq_true]
        intro hc
        exact hnmem ((owned_any_iff db u tag_ids a.tag htn hown).mp hc)

/-- C3 witness: in `c3db`, user 1 requesting tags {1, 3} (tag 3 belongs
to user 2) hits the 404 branch with nothing deleted. -/
theorem bulk_delete_atomic_witness :
    ((∃ x ∈ [1, 3], ¬ ∃ t ∈ c3db.tags, t.id = x ∧ t.user = 1) →
        bulk_delete c3db 1 [1, 3] = (c3db, Except.error Err.notFound)) ∧
    ((∀ i ∈ [1, 3], ∃ t ∈ c3db.tags, t.id = i ∧ t.user = 1) →
        (∃ r, (bulk_delete c3db 1 [1, 3]).2 = Except.ok r) ∧
        (∀ t : Tag, t ∈ (bulk_delete c3db 1 [1, 3]).1.tags ↔
            t ∈ c3db.tags ∧ t.id ∉ [1, 3]) ∧
        (∀ a : BookmarkTag, a ∈ (bulk_delete c3db 1 [1, 3]).1.assocs ↔
            a ∈ c3db.assocs ∧ a.tag ∉ [1, 3]) ∧
        (bulk_delete c3db 1 [1, 3]).1.bookmarks = c3db.bookmarks) :=
  bulk_delete_atomic c3db 1 [1, 3] (by decide) (by decide) (by decide)

/-- The merge inner loop only appends rows. -/
theorem addTargetAssocs_subset (tgt : Nat) :
    ∀ (bids : List Nat) (assocs : List BookmarkTag) (n : Nat) (a : BookmarkTag),
      a ∈ assocs → a ∈ (addTargetAssocs assocs tgt bids n).1
  | [], assocs, n, a, ha => ha
  | bid :: rest, assocs, n, a, ha => by
    unfold addTargetAssocs
    by_cases hc : assocs.any (fun a => a.bookmark == bid && a.tag == tgt) = true
    · rw [if_pos hc]
      exact addTargetAssocs_subset tgt rest assocs n a ha
    · rw [if_neg hc]
      exact addTargetAssocs_subset tgt rest _ _ a (by simp [ha])

/-- Every row produced by the merge inner loop is an original row or a
new (bookmark, target) row for a listed bookmark id. -/
theorem addTargetAssocs_shape (tgt : Nat) :
    ∀ (bids : List Nat) (assocs : List BookmarkTag) (n : Nat) (a : BookmarkTag),
      a ∈ (addTargetAssocs assocs tgt bids n).1 →
      a ∈ assocs ∨ (a.tag = tgt ∧ a.bookmark ∈ bids)
  | [], assocs, n, a, ha => Or.inl ha
  | bid :: rest, assocs, n, a, ha => by
    unfold addTargetAssocs at ha
    by_cases hc : assocs.any (fun a => a.bookmark == bid && a.tag == tgt) = true
    · rw [if_pos hc] at ha
      rcases addTargetAssocs_shape tgt rest assocs n a ha with h | ⟨h1, h2⟩
      · exact Or.inl h
      · exact Or.inr ⟨h1, by simp [h2]⟩
    · rw [if_neg hc] at ha
      rcases addTargetAssocs_shape tgt rest _ _ a ha with h | ⟨h1, h2⟩
      · rcases List.mem_append.mp h with h' | h'
        · exact Or.inl h'
        · simp only [List.mem_singleton] at h'
          subst h'
          exact Or.inr ⟨rfl, by simp⟩
      · exact Or.inr ⟨h1, by simp [h2]⟩

/-- After the merge inner loop, every listed bookmark id carries a
(bookmark, target) row. -/
theorem addTargetAssocs_mem (tgt : Nat) :
    ∀ (bids : List Nat) (assocs : List BookmarkTag) (n : Nat) (bid : Nat),
      bid ∈ bids → (⟨bid, tgt⟩ : BookmarkTag) ∈ (addTargetAssocs assocs tgt bids n).1
  | [], _, _, _, h => absurd h (List.not_mem_nil _)
  | b :: rest, assocs, n, bid, h => by
    unfold addTargetAssocs
    by_cases hc : assocs.any (fun a => a.bookmark == b && a.tag == tgt) = true
    · rw [if_pos hc]
      rcases List.mem_cons.mp h with rfl | hrest
      · rw [List.any_eq_true] at hc
        obtain ⟨a, ham, hpa⟩ := hc
        simp only [Bool.and_eq_true, beq_iff_eq] at hpa
        have heq : a = (⟨bid, tgt⟩ : BookmarkTag) := by
          obtain ⟨ab, at'⟩ := a
          simp only [BookmarkTag.mk.injEq]
          exact hpa
        exact addTargetAssocs_subset tgt rest assocs n _ (heq ▸ ham)
      · exact addTargetAssocs_mem tgt rest assocs n bid hrest
    · rw [if_neg hc]
      rcases List.mem_cons.mp h with rfl | hrest
      · exact addTargetAssocs_subset tgt rest (assocs ++ [(⟨bid, tgt⟩ : BookmarkTag)]) (n + 1)
          (⟨bid, tgt⟩ : BookmarkTag) (by simp)
      · exact addTargetAssocs_mem tgt rest _ _ bid hrest

/-- The merge inner loop creates a row only when it is absent, so
uniqueness of association rows is preserved. -/
theorem addTargetAssocs_nodup (tgt : Nat) :
    ∀ (bids : List Nat) (assocs : List BookmarkTag) (n : Nat),
      assocs.Nodup → (addTargetAssocs assocs tgt bids n).1.Nodup
  | [], _, _, hnd => hnd
  | bid :: rest, assocs, n, hnd => by
    unfold addTargetAssocs
    by_cases hc : assocs.any (fun a => a.bookmark == bid && a.tag == tgt) = true
    · rw [if_pos hc]
      exact addTargetAssocs_nodup tgt rest assocs n hnd
    · rw [if_neg hc]
      apply addTargetAssocs_nodup tgt rest _ _
      have hnm : (⟨bid, tgt⟩ : BookmarkTag) ∉ assocs := by
        intro hmem
        apply hc
        rw [List.any_eq_true]
        exact ⟨⟨bid, tgt⟩, hmem, by simp⟩
      simp [List.nodup_append, hnd, hnm]

/-- The merge outer loop never touches the bookmark table. -/
theorem mergeLoop_bookmarks (tgt : Nat) :
    ∀ (src : List Tag) (db : DB) (n : Nat),
      (mergeLoop db tgt src n).1.bookmarks = db.bookmarks
  | [], db, n => rfl
  | s :: rest, db, n => by
    unfold mergeLoop
    exact mergeLoop_bookmarks tgt rest _ _

/-- A tag row survives the merge outer loop exactly when it is not one
of the processed source tags. -/
theorem mergeLoop_tags_mem (tgt : Nat) :
    ∀ (src : List Tag) (db : DB) (n : Nat) (t : Tag),
      t ∈ (mergeLoop db tgt src n).1.tags ↔ (t ∈ db.tags ∧ ∀ s ∈ src, t.id ≠ s.id)
  | [], db, n, t => by simp [mergeLoop]
  | s :: rest, db, n, t => by
    unfold mergeLoop
    rw [mergeLoop_tags_mem tgt rest _ _ t]
    simp only [List.mem_filter, bne_iff_ne]
    constructor
    · rintro ⟨⟨htm, hts⟩, hrest⟩
      refine ⟨htm, fun s' hs' => ?_⟩
      rcases List.mem_cons.mp hs' with rfl | hs'
      · exact hts
      · exact hrest s' hs'
    · rintro ⟨htm, hall⟩
      exact ⟨⟨htm, hall s (by simp)⟩, fun s' hs' => hall s' (by simp [hs'])⟩

/-- An association of a tag outside the source set survives the merge
outer loop. -/
theorem mergeLoop_preserve (tgt : Nat) :
    ∀ (src : List Tag) (db : DB) (n : Nat) (a : BookmarkTag),
      a ∈ db.assocs → (∀ s ∈ src, a.tag ≠ s.id) →
      a ∈ (mergeLoop db tgt src n).1.assocs
  | [], db, n, a, ha, _ => ha
  | s :: rest, db, n, a, ha, hno => by
    unfold mergeLoop
    apply mergeLoop_preserve tgt rest _ _ a
    · apply List.mem_filter.mpr
      refine ⟨addTargetAssocs_subset tgt _ db.assocs n a ha, ?_⟩
      simp only [bne_iff_ne]
      exact hno s (by simp)
    · intro s' hs'
      exact hno s' (by simp [hs'])

/-- Every association after the merge outer loop is an original one or a
(bookmark, target) row for a bookmark that carried some source tag. -/
theorem mergeLoop_shape (tgt : Nat) :
    ∀ (src : List Tag) (db : DB) (n : Nat),
      (∀ s ∈ src, s.id ≠ tgt) →
      ∀ a ∈ (mergeLoop db tgt src n).1.assocs,
        a ∈ db.assocs ∨
          (a.tag = tgt ∧ ∃ s ∈ src, (⟨a.bookmark, s.id⟩ : BookmarkTag) ∈ db.assocs)
  | [], db, n, _, a, ha => Or.inl ha
  | s :: rest, db, n, htgt, a, ha => by
    unfold mergeLoop at ha
    have hstep : ∀ x : BookmarkTag,
        x ∈ ((addTargetAssocs db.assocs tgt
            ((db.assocs.filter (fun a => a.tag == s.id)).map BookmarkTag.bookmark) n).1.filter
              (fun a => a.tag != s.id)) →
        x ∈ db.assocs ∨ (x.tag = tgt ∧ (⟨x.bookmark, s.id⟩ : BookmarkTag) ∈ db.assocs) := by
      intro x hx
      obtain ⟨hx1, _⟩ := List.mem_filter.mp hx
      rcases addTargetAssocs_shape tgt _ db.assocs n x hx1 with h | ⟨h1, h2⟩
      · exact Or.inl h
      · refine Or.inr ⟨h1, ?_⟩
        obtain ⟨a', ha'f, ha'b⟩ := List.mem_map.mp h2
        obtain ⟨ha'm, ha'c⟩ := List.mem_filter.mp ha'f
        rw [beq_iff_eq] at ha'c
        have heq : a' = (⟨x.bookmark, s.id⟩ : BookmarkTag) := by
          obtain ⟨b', t'⟩ := a'
          simp only [BookmarkTag.mk.injEq]
          exact ⟨ha'b, ha'c⟩
        rwa [heq] at ha'm
    rcases mergeLoop_shape tgt rest _ _ (fun s' hs' => htgt s' (by simp [hs'])) a ha
      with h | ⟨h1, h2⟩
    · rcases hstep a h with h' | ⟨h1', h2'⟩
      · exact Or.inl h'
      · exact Or.inr ⟨h1', s, by simp, h2'⟩
    · obtain ⟨s', hs', hpair⟩ := h2
      rcases hstep _ hpair with h' | ⟨h1', h2'⟩
      · exact Or.inr ⟨h1, s', by simp [hs'], h'⟩
      · exact absurd h1' (htgt s' (by simp [hs']))

/-- After the merge outer loop no association references a source
tag. -/
theorem mergeLoop_no_src (tgt : Nat) :
    ∀ (src : List Tag) (db : DB) (n : Nat),
      (∀ s ∈ src, s.id ≠ tgt) →
      ∀ a ∈ (mergeLoop db tgt src n).1.assocs, ∀ s ∈ src, a.tag ≠ s.id
  | [], _, _, _, a, _, s, hs => absurd hs (List.not_mem_nil s)
  | s :: rest, db, n, htgt, a, ha, s', hs' => by
    unfold mergeLoop at ha
    rcases List.mem_cons.mp hs' with rfl | hsr
    · rcases mergeLoop_shape tgt rest _ _ (fun x hx => htgt x (by simp [hx])) a ha
        with h | ⟨h1, _⟩
      · have hcond := (List.mem_filter.mp h).2
        simpa [bne_iff_ne] using hcond
      · rw [h1]
        intro heq
        exact htgt s' (by simp) heq.symm
    · exact mergeLoop_no_src tgt rest _ _ (fun x hx => htgt x (by simp [hx])) a ha s' hsr

/-- The merge outer loop preserves uniqueness of association rows. -/
theorem mergeLoop_nodup (tgt : Nat) :
    ∀ (src : List Tag) (db : DB) (n : Nat),
      db.assocs.Nodup → (mergeLoop db tgt src n).1.assocs.Nodup
  | [], _, _, hnd => hnd
  | s :: rest, db, n, hnd => by
    unfold mergeLoop
    apply mergeLoop_nodup tgt rest _ _
    exact List.Nodup.filter _ (addTargetAssocs_nodup tgt _ db.assocs n hnd)

/-- Every bookmark that carried some source tag carries a
(bookmark, target) association after the merge outer loop. -/
theorem mergeLoop_creates (tgt : Nat) :
    ∀ (src : List Tag) (db : DB) (n : Nat),
      (src.map Tag.id).Nodup → (∀ s ∈ src, s.id ≠ tgt) →
      ∀ s ∈ src, ∀ bid, (⟨bid, s.id⟩ : BookmarkTag) ∈ db.assocs →
      (⟨bid, tgt⟩ : BookmarkTag) ∈ (mergeLoop db tgt src n).1.assocs
  | [], _, _, _, _, s, hs, _, _ => absurd hs (List.not_mem_nil s)
  | s0 :: rest, db, n, hnd, htgt, s, hs, bid, hpair => by
    unfold mergeLoop
    rcases List.mem_cons.mp hs with rfl | hsr
    · have hbids : bid ∈ (db.assocs.filter (fun a => a.tag == s.id)).map BookmarkTag.bookmark :=
        List.mem_map.mpr ⟨⟨bid, s.id⟩, List.mem_filter.mpr ⟨hpair, by simp⟩, rfl⟩
      have hmem2 : (⟨bid, tgt⟩ : BookmarkTag) ∈
          (addTargetAssocs db.assocs tgt
            ((db.assocs.filter (fun a => a.tag == s.id)).map BookmarkTag.bookmark) n).1.filter
              (fun a => a.tag != s.id) := by
        apply List.mem_filter.mpr
        refine ⟨addTargetAssocs_mem tgt _ db.assocs n bid hbids, ?_⟩
        simp only [bne_iff_ne]
        intro heq
        exact htgt s (by simp) heq.symm
      apply mergeLoop_preserve tgt rest _ _ _ hmem2
      intro s' hs'
      intro heq
      exact htgt s' (by simp [hs']) heq.symm
    · have hnd' : (rest.map Tag.id).Nodup := (List.nodup_cons.mp hnd).2
      have hne0 : s.id ≠ s0.id := by
        intro heq
        have h0 := (List.nodup_cons.mp hnd).1
        exact h0 (heq ▸ List.mem_map.mpr ⟨s, hsr, rfl⟩)
      apply mergeLoop_creates tgt rest _ _ hnd' (fun x hx => htgt x (by simp [hx])) s hsr bid
      apply List.mem_filter.mpr
      refine ⟨addTargetAssocs_subset tgt _ db.assocs n _ hpair, ?_⟩
      simp only [bne_iff_ne]
      exact hne0

/-- C2: for a user owning all involved (distinct) tag ids, `merge`
succeeds, every bookmark previously carrying any source tag ends with
exactly one association to the target tag (creation skipped when the
(bookmark, target) pair already existed, by row uniqueness), all source
tags are deleted, and no association referencing a source tag
remains. -/
theorem merge_reassociates (db : DB) (u : Nat) (srcIds : List Nat) (tgt : Nat)
    (hWF : WF db) (hne : srcIds ≠ []) (htgt0 : tgt ≠ 0)
    (hnd : (srcIds ++ [tgt]).Nodup)
    (hown : ∀ i ∈ srcIds ++ [tgt], ∃ t ∈ db.tags, t.id = i ∧ t.user = u) :
    (∃ n, (merge db u srcIds tgt).2 = Except.ok n) ∧
    (∀ bid, (∃ s ∈ srcIds, (⟨bid, s⟩ : BookmarkTag) ∈ db.assocs) →
       (merge db u srcIds tgt).1.assocs.count ⟨bid, tgt⟩ = 1) ∧
    (∀ t ∈ (merge db u srcIds tgt).1.tags, t.id ∉ srcIds) ∧
    (∀ a ∈ (merge db u srcIds tgt).1.assocs, a.tag ∉ srcIds) := by
  obtain ⟨hbn, htn, han, href⟩ := hWF
  have hndpair := List.nodup_append.mp hnd
  have hsrcnodup : srcIds.Nodup := hndpair.1
  have htgtnotin : tgt ∉ srcIds := fun hmem => hndpair.2.2 hmem (by simp)
  have hlen := filter_owned_length_eq db u (srcIds ++ [tgt]) htn hnd hown
  have hanytgt : db.tags.any (fun t => t.id == tgt && t.user == u) = true := by
    rw [List.any_eq_true]
    obtain ⟨t, htm, hti, htu⟩ := hown tgt (by simp)
    exact ⟨t, htm, by simp [hti, htu]⟩
  have hred : merge db u srcIds tgt =
      ((mergeLoop db tgt (db.tags.filter (fun t => srcIds.contains t.id && t.user == u)) 0).1,
       Except.ok
         (mergeLoop db tgt (db.tags.filter (fun t => srcIds.contains t.id && t.user == u)) 0).2) := by
    simp only [merge]
    rw [if_neg (by simp [List.isEmpty_iff, hne, htgt0]), if_neg (fun h => h hlen),
      if_pos hanytgt]
  have hsrcnd : ((db.tags.filter (fun t => srcIds.contains t.id && t.user == u)).map Tag.id).Nodup :=
    filter_owned_map_nodup db u _ htn
  have hsrctgt : ∀ s ∈ db.tags.filter (fun t => srcIds.contains t.id && t.user == u),
      s.id ≠ tgt := by
    intro s hsf heq
    have hc := (List.mem_filter.mp hsf).2
    simp only [Bool.and_eq_true, List.elem_iff] at hc
    exact htgtnotin (heq ▸ hc.1)
  have hmemsrc : ∀ i ∈ srcIds, ∃ t0 ∈ db.tags.filter
      (fun t => srcIds.contains t.id && t.user == u), t0.id = i := by
    intro i hi
    obtain ⟨t0, ht0m, ht0i, ht0u⟩ := hown i (List.mem_append.mpr (Or.inl hi))
    refine ⟨t0, List.mem_filter.mpr ⟨ht0m, ?_⟩, ht0i⟩
    simp only [Bool.and_eq_true, List.elem_iff, beq_iff_eq]
    exact ⟨ht0i ▸ hi, ht0u⟩
  rw [hred]
  refine ⟨⟨_, rfl⟩, ?_, ?_, ?_⟩
  · rintro bid ⟨s, hsrc, hpair⟩
    obtain ⟨t0, ht0f, ht0i⟩ := hmemsrc s hsrc
    have hmem := mergeLoop_creates tgt _ db 0 hsrcnd hsrctgt t0 ht0f bid (by rw [ht0i]; exact hpair)
    exact List.count_eq_one_of_mem (mergeLoop_nodup tgt _ db 0 han) hmem
  · intro t htmem hid
    have h := (mergeLoop_tags_mem tgt _ db 0 t).mp htmem
    obtain ⟨t0, ht0f, ht0i⟩ := hmemsrc t.id hid
    exact h.2 t0 ht0f ht0i.symm
  · intro a hamem hid
    obtain ⟨t0, ht0f, ht0i⟩ := hmemsrc a.tag hid
    exact mergeLoop_no_src tgt _ db 0 hsrctgt a hamem t0 ht0f ht0i.symm

/-- C2 witness: merging dev(1) and coding(2) into programming(3) in
`c2db` leaves bookmark 10 with exactly one association to tag 3 and no
source tags or source associations. -/
theorem merge_reassociates_witness :
    (∃ n, (merge c2db 1 [1, 2] 3).2 = Except.ok n) ∧
    (∀ bid, (∃ s ∈ [1, 2], (⟨bid, s⟩ : BookmarkTag) ∈ c2db.assocs) →
       (merge c2db 1 [1, 2] 3).1.assocs.count ⟨bid, 3⟩ = 1) ∧
    (∀ t ∈ (merge c2db 1 [1, 2] 3).1.tags, t.id ∉ [1, 2]) ∧
    (∀ a ∈ (merge c2db 1 [1, 2] 3).1.assocs, a.tag ∉ [1, 2]) :=
  merge_reassociates c2db 1 [1, 2] 3 (by decide) (by decide) (by decide)
    (by decide) (by decide)

/-- C10: creating/updating a bookmark with a `tag_ids` list never fails
on foreign ids: `_process_tags` first deletes all of the bookmark's
associations, then creates one association per requested id that denotes
a tag owned by the requesting user, silently skipping the rest — the
final association set is characterized exactly. -/
theorem process_tags_skips_foreign (db : DB) (u bid : Nat) (tag_ids : List Nat) :
    (∀ a : BookmarkTag, a ∈ (process_tags db u bid tag_ids []).assocs ↔
      ((a ∈ db.assocs ∧ a.bookmark ≠ bid) ∨
       (a.bookmark = bid ∧ ∃ t ∈ db.tags, t.id = a.tag ∧ t.user = u ∧ t.id ∈ tag_ids))) ∧
    (process_tags db u bid tag_ids []).tags = db.tags ∧
    (process_tags db u bid tag_ids []).bookmarks = db.bookmarks := by
  by_cases hmt : tag_ids.isEmpty = true
  · have hred : process_tags db u bid tag_ids [] =
        { db with assocs := db.assocs.filter (fun a => a.bookmark != bid) } := by
      simp only [process_tags, List.isEmpty_nil, if_true, if_pos hmt]
    rw [List.isEmpty_iff] at hmt
    subst hmt
    rw [hred]
    refine ⟨?_, rfl, rfl⟩
    intro a
    simp [List.mem_filter, bne_iff_ne]
  · have hred : (process_tags db u bid tag_ids []).assocs =
        db.assocs.filter (fun a => a.bookmark != bid) ++
          List.map (fun tid => (⟨bid, tid⟩ : BookmarkTag))
            (List.map Tag.id
              (List.filter (fun t => tag_ids.contains t.id && t.user == u) db.tags)) := by
      simp only [process_tags, List.isEmpty_nil, if_true, if_neg hmt]
    have hredt : (process_tags db u bid tag_ids []).tags = db.tags := by
      simp only [process_tags, List.isEmpty_nil, if_true, if_neg hmt]
    have hredb : (process_tags db u bid tag_ids []).bookmarks = db.bookmarks := by
      simp only [process_tags, List.isEmpty_nil, if_true, if_neg hmt]
    refine ⟨?_, hredt, hredb⟩
    intro a
    rw [hred]
    simp only [List.mem_append, List.mem_filter, bne_iff_ne, List.mem_map]
    constructor
    · rintro (⟨ham, hab⟩ | ⟨tid, ⟨t, ⟨htm, hc⟩, hti⟩, hae⟩)
      · exact Or.inl ⟨ham, hab⟩
      · subst hae
        simp only [Bool.and_eq_true, List.elem_iff, beq_iff_eq] at hc
        exact Or.inr ⟨rfl, t, htm, hti, hc.2, hti ▸ hc.1⟩
    · rintro (⟨ham, hab⟩ | ⟨habid, t, htm, hti, htu, htin⟩)
      · exact Or.inl ⟨ham, hab⟩
      · refine Or.inr ⟨t.id, ⟨t, ⟨htm, ?_⟩, rfl⟩, ?_⟩
        · simp only [Bool.and_eq_true, List.elem_iff, beq_iff_eq]
          exact ⟨htin, htu⟩
        · obtain ⟨ab, at'⟩ := a
          simp only [BookmarkTag.mk.injEq]
          exact ⟨habid.symm, hti⟩

/-- Every stored tag id is bounded by the running maximum. -/
theorem le_foldr_max :
    ∀ (l : List Tag) (t : Tag), t ∈ l → t.id ≤ l.foldr (fun t m => max t.id m) 0
  | [], t, h => absurd h (List.not_mem_nil t)
  | s :: rest, t, h => by
    rcases List.mem_cons.mp h with rfl | h'
    · exact Nat.le_max_left _ _
    · exact Nat.le_trans (le_foldr_max rest t h') (Nat.le_max_right _ _)

/-- The auto-increment key is strictly larger than every stored tag
id. -/
theorem freshTagId_gt (db : DB) : ∀ t ∈ db.tags, t.id < freshTagId db :=
  fun t h => Nat.lt_succ_of_le (le_foldr_max db.tags t h)

/-- Deleting associations preserves the cross-user invariant. -/
theorem owner_ok_filter (db : DB) (p : BookmarkTag → Bool) (hInv : assocUsersOk db) :
    assocUsersOk { db with assocs := db.assocs.filter p } :=
  fun a ha => hInv a (List.mem_filter.mp ha).1

/-- Inserting associations from one owned bookmark to owned tags
preserves the cross-user invariant. -/
theorem owner_ok_insert_list (db : DB) (u bid : Nat) (tids : List Nat)
    (hInv : assocUsersOk db)
    (hbn : (db.bookmarks.map Bookmark.id).Nodup) (htn : (db.tags.map Tag.id).Nodup)
    (hb : ∃ b ∈ db.bookmarks, b.id = bid ∧ b.user = u)
    (hts : ∀ tid ∈ tids, ∃ t ∈ db.tags, t.id = tid ∧ t.user = u) :
    assocUsersOk { db with assocs := db.assocs ++ tids.map (fun tid => ⟨bid, tid⟩) } := by
  intro a ha b hbm t htm hbid htid
  rcases List.mem_append.mp ha with h | h
  · exact hInv a h b hbm t htm hbid htid
  · obtain ⟨tid, htidmem, hae⟩ := List.mem_map.mp h
    subst hae
    obtain ⟨b', hb'm, hb'i, hb'u⟩ := hb
    obtain ⟨t', ht'm, ht'i, ht'u⟩ := hts tid htidmem
    have hbeq : b' = b := List.inj_on_of_nodup_map hbn hb'm hbm (by rw [hb'i, hbid])
    have hteq : t' = t := List.inj_on_of_nodup_map htn ht'm htm (by rw [ht'i, htid])
    rw [← hbeq, ← hteq, hb'u, ht'u]

/-- Creating a fresh tag for the user together with its association to
an owned bookmark preserves the cross-user invariant. -/
theorem owner_ok_insert_fresh (db : DB) (u bid : Nat) (nm : String) (ai : Bool)
    (hInv : assocUsersOk db)
    (hbn : (db.bookmarks.map Bookmark.id).Nodup)
    (href : ∀ a ∈ db.assocs, ∃ t ∈ db.tags, t.id = a.tag)
    (hb : ∃ b ∈ db.bookmarks, b.id = bid ∧ b.user = u) :
    assocUsersOk { tags := db.tags ++ [⟨freshTagId db, u, nm, ai⟩],
                   bookmarks := db.bookmarks,
                   assocs := db.assocs ++ [⟨bid, freshTagId db⟩] } := by
  intro a ha b hbm t htm hbid htid
  rcases List.mem_append.mp htm with htm' | htm'
  · rcases List.mem_append.mp ha with h | h
    · exact hInv a h b hbm t htm' hbid htid
    · simp only [List.mem_singleton] at h
      subst h
      have hlt := freshTagId_gt db t htm'
      rw [htid] at hlt
      exact absurd hlt (Nat.lt_irrefl _)
  · simp only [List.mem_singleton] at htm'
    subst htm'
    rcases List.mem_append.mp ha with h | h
    · obtain ⟨t0, ht0m, ht0i⟩ := href a h
      have h0 := freshTagId_gt db t0 ht0m
      rw [ht0i, ← htid] at h0
      simp at h0
    · simp only [List.mem_singleton] at h
      subst h
      obtain ⟨b', hb'm, hb'i, hb'u⟩ := hb
      have hbeq : b' = b := List.inj_on_of_nodup_map hbn hb'm hbm (by rw [hb'i, hbid])
      rw [← hbeq, hb'u]

/-- Creating a fresh, unreferenced tag row preserves the cross-user
invariant. -/
theorem owner_ok_fresh_tag_only (db : DB) (u : Nat) (nm : String) (ai : Bool)
    (hInv : assocUsersOk db)
    (href : ∀ a ∈ db.assocs, ∃ t ∈ db.tags, t.id = a.tag) :
    assocUsersOk { db with tags := db.tags ++ [⟨freshTagId db, u, nm, ai⟩] } := by
  intro a ha b hbm t htm hbid htid
  rcases List.mem_append.mp htm with htm' | htm'
  · exact hInv a ha b hbm t htm' hbid htid
  · simp only [List.mem_singleton] at htm'
    subst htm'
    obtain ⟨t0, ht0m, ht0i⟩ := href a ha
    have h0 := freshTagId_gt db t0 ht0m
    rw [ht0i, ← htid] at h0
    simp at h0

/-- The by-id branch of `add_tag` preserves the cross-user invariant. -/
theorem add_tag_id_branch_owner (db : DB) (u bid tid : Nat)
    (hInv : assocUsersOk db)
    (hbn : (db.bookmarks.map Bookmark.id).Nodup) (htn : (db.tags.map Tag.id).Nodup)
    (hbex : ∃ b ∈ db.bookmarks, b.id = bid ∧ b.user = u) :
    assocUsersOk
      ((if (db.tags.any fun t => t.id == tid && t.user == u) = true then
          if (db.assocs.any fun a => a.bookmark == bid && a.tag == tid) = true then
            (db, Except.error Err.conflict)
          else
            ({ tags := db.tags, bookmarks := db.bookmarks,
               assocs := db.assocs ++ [(⟨bid, tid⟩ : BookmarkTag)] }, Except.ok ())
        else (db, Except.error Err.notFound)).1) := by
  by_cases htk : (db.tags.any fun t => t.id == tid && t.user == u) = true
  · rw [if_pos htk]
    by_cases hex : (db.assocs.any fun a => a.bookmark == bid && a.tag == tid) = true
    · rw [if_pos hex]
      exact hInv
    · rw [if_neg hex]
      have htex : ∃ t ∈ db.tags, t.id = tid ∧ t.user = u := by
        rw [List.any_eq_true] at htk
        obtain ⟨t, htm, hp⟩ := htk
        simp only [Bool.and_eq_true, beq_iff_eq] at hp
        exact ⟨t, htm, hp.1, hp.2⟩
      have h := owner_ok_insert_list db u bid [tid] hInv hbn htn hbex
        (by intro x hx; simp only [List.mem_singleton] at hx; subst hx; exact htex)
      simpa using h
  · rw [if_neg htk]
    exact hInv

/-- The by-name branch of `add_tag` preserves the cross-user
invariant. -/
theorem add_tag_name_branch_owner (db : DB) (u bid : Nat) (nm0 : String)
    (hInv : assocUsersOk db)
    (hbn : (db.bookmarks.map Bookmark.id).Nodup) (htn : (db.tags.map Tag.id).Nodup)
    (href : ∀ a ∈ db.assocs, (∃ b ∈ db.bookmarks, b.id = a.bookmark) ∧
      (∃ t ∈ db.tags, t.id = a.tag))
    (hbex : ∃ b ∈ db.bookmarks, b.id = bid ∧ b.user = u) :
    assocUsersOk ((add_tag db u bid none (some nm0)).1) := by
  have hbk : (db.bookmarks.any fun b => b.id == bid && b.user == u) = true := by
    rw [List.any_eq_true]
    obtain ⟨b, hbm, hbi, hbu⟩ := hbex
    exact ⟨b, hbm, by simp [hbi, hbu]⟩
  unfold add_tag
  rw [if_neg (by simp [hbk])]
  show assocUsersOk
    ((if normalizeName nm0 = "" then (db, Except.error Err.badRequest)
      else
        match db.tags.find? (fun t => t.user == u && t.name == normalizeName nm0) with
        | some t =>
          if (db.assocs.any fun a => a.bookmark == bid && a.tag == t.id) = true then
            (db, Except.error Err.conflict)
          else ({ tags := db.tags, bookmarks := db.bookmarks,
                  assocs := db.assocs ++ [(⟨bid, t.id⟩ : BookmarkTag)] }, Except.ok ())
        | none =>
          if (db.assocs.any fun a => a.bookmark == bid && a.tag == freshTagId db) = true then
            ({ tags := db.tags ++ [(⟨freshTagId db, u, normalizeName nm0, false⟩ : Tag)],
               bookmarks := db.bookmarks, assocs := db.assocs }, Except.error Err.conflict)
          else ({ tags := db.tags ++ [(⟨freshTagId db, u, normalizeName nm0, false⟩ : Tag)],
                  bookmarks := db.bookmarks,
                  assocs := db.assocs ++ [(⟨bid, freshTagId db⟩ : BookmarkTag)] },
                Except.ok ())).1)
  by_cases hnm : normalizeName nm0 = ""
  · rw [if_pos hnm]
    exact hInv
  rw [if_neg hnm]
  have href' : ∀ a ∈ db.assocs, ∃ t ∈ db.tags, t.id = a.tag :=
    fun a ha => (href a ha).2
  cases hfind : db.tags.find? (fun t => t.user == u && t.name == normalizeName nm0) with
  | some t =>
    have htm := List.mem_of_find?_eq_some hfind
    have hp := List.find?_some hfind
    simp only [Bool.and_eq_true, beq_iff_eq] at hp
    show assocUsersOk
      ((if (db.assocs.any fun a => a.bookmark == bid && a.tag == t.id) = true then
          (db, Except.error Err.conflict)
        else ({ tags := db.tags, bookmarks := db.bookmarks,
                assocs := db.assocs ++ [(⟨bid, t.id⟩ : BookmarkTag)] }, Except.ok ())).1)
    by_cases hex : (db.assocs.any fun a => a.bookmark == bid && a.tag == t.id) = true
    · rw [if_pos hex]
      exact hInv
    · rw [if_neg hex]
      have h := owner_ok_insert_list db u bid [t.id] hInv hbn htn hbex
        (by intro x hx; simp only [List.mem_singleton] at hx; subst hx
            exact ⟨t, htm, rfl, hp.1⟩)
      simpa using h
  | none =>
    show assocUsersOk
      ((if (db.assocs.any fun a => a.bookmark == bid && a.tag == freshTagId db) = true then
          ({ tags := db.tags ++ [(⟨freshTagId db, u, normalizeName nm0, false⟩ : Tag)],
             bookmarks := db.bookmarks, assocs := db.assocs }, Except.error Err.conflict)
        else ({ tags := db.tags ++ [(⟨freshTagId db, u, normalizeName nm0, false⟩ : Tag)],
                bookmarks := db.bookmarks,
                assocs := db.assocs ++ [(⟨bid, freshTagId db⟩ : BookmarkTag)] },
              Except.ok ())).1)
    by_cases hex : (db.assocs.any
        (fun a => a.bookmark == bid && a.tag == freshTagId db)) = true
    · rw [if_pos hex]
      exact owner_ok_fresh_tag_only db u (normalizeName nm0) false hInv href'
    · rw [if_neg hex]
      exact owner_ok_insert_fresh db u bid (normalizeName nm0) false hInv hbn href' hbex

/-- `add_tag` preserves the cross-user invariant in every branch. -/
theorem add_tag_preserves_owner (db : DB) (u bid : Nat) (tagId : Option Nat)
    (tagName : Option String) (hWF : WF db) (hInv : assocUsersOk db) :
    assocUsersOk (add_tag db u bid tagId tagName).1 := by
  obtain ⟨hbn, htn, han, href⟩ := hWF
  by_cases hbk : (db.bookmarks.any fun b => b.id == bid && b.user == u) = true
  swap
  · rw [show add_tag db u bid tagId tagName = (db, Except.error Err.notFound) from by
      unfold add_tag
      rw [if_pos (by simp [Bool.not_eq_true] at hbk ⊢; exact hbk)]]
    exact hInv
  have hbex : ∃ b ∈ db.bookmarks, b.id = bid ∧ b.user = u := by
    rw [List.any_eq_true] at hbk
    obtain ⟨b, hbm, hp⟩ := hbk
    simp only [Bool.and_eq_true, beq_iff_eq] at hp
    exact ⟨b, hbm, hp.1, hp.2⟩
  cases tagName with
  | none =>
    cases tagId with
    | none =>
      rw [show add_tag db u bid none none = (db, Except.error Err.badRequest) from by
        unfold add_tag
        rw [if_neg (by simp [hbk])]]
      exact hInv
    | some tid =>
      rw [show add_tag db u bid (some tid) none = (if (db.tags.any fun t => t.id == tid && t.user == u) = true then
          if (db.assocs.any fun a => a.bookmark == bid && a.tag == tid) = true then
            (db, Except.error Err.conflict)
          else
            ({ tags := db.tags, bookmarks := db.bookmarks,
               assocs := db.assocs ++ [(⟨bid, tid⟩ : BookmarkTag)] }, Except.ok ())
        else (db, Except.error Err.notFound)) from by
        unfold add_tag
        rw [if_neg (by simp [hbk])]]
      exact add_tag_id_branch_owner db u bid tid hInv hbn htn hbex
  | some nm0 =>
    cases tagId with
    | none => exact add_tag_name_branch_owner db u bid nm0 hInv hbn htn href hbex
    | some tid =>
      rw [show add_tag db u bid (some tid) (some nm0) = (if (db.tags.any fun t => t.id == tid && t.user == u) = true then
          if (db.assocs.any fun a => a.bookmark == bid && a.tag == tid) = true then
            (db, Except.error Err.conflict)
          else
            ({ tags := db.tags, bookmarks := db.bookmarks,
               assocs := db.assocs ++ [(⟨bid, tid⟩ : BookmarkTag)] }, Except.ok ())
        else (db, Except.error Err.notFound)) from by
        unfold add_tag
        rw [if_neg (by simp [hbk])]]
      exact add_tag_id_branch_owner db u bid tid hInv hbn htn hbex

/-- `merge` preserves the cross-user invariant in every branch. -/
theorem merge_preserves_owner (db : DB) (u : Nat) (srcIds : List Nat) (tgt : Nat)
    (hWF : WF db) (hInv : assocUsersOk db) :
    assocUsersOk (merge db u srcIds tgt).1 := by
  obtain ⟨hbn, htn, han, href⟩ := hWF
  unfold merge
  by_cases h1 : (srcIds.isEmpty || tgt == 0) = true
  · rw [if_pos h1]
    exact hInv
  rw [if_neg h1]
  by_cases h2 : (db.tags.filter
      (fun t => (srcIds ++ [tgt]).contains t.id && t.user == u)).length
      ≠ (srcIds ++ [tgt]).length
  · rw [if_pos h2]
    exact hInv
  rw [if_neg h2]
  by_cases h3 : (db.tags.any fun t => t.id == tgt && t.user == u) = true
  swap
  · rw [if_neg h3]
    exact hInv
  rw [if_pos h3]
  have hlen := not_ne_iff.mp h2
  obtain ⟨hndall, hownall⟩ := owned_length_elim db u (srcIds ++ [tgt]) htn hlen
  have hndpair := List.nodup_append.mp hndall
  have htgtnotin : tgt ∉ srcIds := fun hmem => hndpair.2.2 hmem (by simp)
  have hsrctgt : ∀ s ∈ db.tags.filter (fun t => srcIds.contains t.id && t.user == u),
      s.id ≠ tgt := by
    intro s hsf heq
    have hc := (List.mem_filter.mp hsf).2
    simp only [Bool.and_eq_true, List.elem_iff] at hc
    exact htgtnotin (heq ▸ hc.1)
  have htgtowned : ∃ t' ∈ db.tags, t'.id = tgt ∧ t'.user = u := by
    rw [List.any_eq_true] at h3
    obtain ⟨t', ht'm, hp⟩ := h3
    simp only [Bool.and_eq_true, beq_iff_eq] at hp
    exact ⟨t', ht'm, hp.1, hp.2⟩
  intro a ha b hbm t htm hbid htid
  rw [mergeLoop_bookmarks] at hbm
  have htdb := ((mergeLoop_tags_mem tgt _ db 0 t).mp htm).1
  rcases mergeLoop_shape tgt _ db 0 hsrctgt a ha with h | ⟨htag, s, hsf, hpair⟩
  · exact hInv a h b hbm t htdb hbid htid
  · have hsmem := (List.mem_filter.mp hsf).1
    have hsu : s.user = u := by
      have hc := (List.mem_filter.mp hsf).2
      simp only [Bool.and_eq_true, beq_iff_eq] at hc
      exact hc.2
    have hbu : b.user = u := by
      have := hInv _ hpair b hbm s hsmem hbid rfl
      rw [this, hsu]
    obtain ⟨t', ht'm, ht'i, ht'u⟩ := htgtowned
    have hteq : t' = t := List.inj_on_of_nodup_map htn ht'm htdb (by rw [ht'i, htid, htag])
    rw [hbu, ← hteq, ht'u]

/-- The `tag_names` loop of `_process_tags` preserves the cross-user
invariant (threading the schema invariants through each step). -/
theorem processTagNames_preserves (u bid : Nat) :
    ∀ (names : List String) (db : DB),
      WF db → assocUsersOk db → (∃ b ∈ db.bookmarks, b.id = bid ∧ b.user = u) →
      assocUsersOk (processTagNames db u bid names)
  | [], db, _, hInv, _ => hInv
  | nm0 :: rest, db, hWF, hInv, hb => by
    obtain ⟨hbn, htn, han, href⟩ := hWF
    unfold processTagNames
    by_cases hnm : normalizeName nm0 = ""
    · rw [if_pos hnm]
      exact processTagNames_preserves u bid rest db ⟨hbn, htn, han, href⟩ hInv hb
    rw [if_neg hnm]
    cases hfind : db.tags.find? (fun t => t.user == u && t.name == normalizeName nm0) with
    | some t =>
      have htm := List.mem_of_find?_eq_some hfind
      have hp := List.find?_some hfind
      simp only [Bool.and_eq_true, beq_iff_eq] at hp
      show assocUsersOk
        (if (db.assocs.any fun a => a.bookmark == bid && a.tag == t.id) = true then
           processTagNames db u bid rest
         else
           processTagNames
             { tags := db.tags, bookmarks := db.bookmarks,
               assocs := db.assocs ++ [(⟨bid, t.id⟩ : BookmarkTag)] } u bid rest)
      by_cases hex : (db.assocs.any fun a => a.bookmark == bid && a.tag == t.id) = true
      · rw [if_pos hex]
        exact processTagNames_preserves u bid rest db ⟨hbn, htn, han, href⟩ hInv hb
      · rw [if_neg hex]
        have hnmem : (⟨bid, t.id⟩ : BookmarkTag) ∉ db.assocs := by
          intro hmem
          apply hex
          rw [List.any_eq_true]
          exact ⟨⟨bid, t.id⟩, hmem, by simp⟩
        apply processTagNames_preserves u bid rest
        · refine ⟨hbn, htn, ?_, ?_⟩
          · simp [List.nodup_append, han, hnmem]
          · intro a ha
            rcases List.mem_append.mp ha with h | h
            · exact href a h
            · simp only [List.mem_singleton] at h
              subst h
              obtain ⟨b', hb'm, hb'i, _⟩ := hb
              exact ⟨⟨b', hb'm, hb'i⟩, ⟨t, htm, rfl⟩⟩
        · exact owner_ok_insert_list db u bid [t.id] hInv hbn htn hb
            (by intro x hx; simp only [List.mem_singleton] at hx; subst hx
                exact ⟨t, htm, rfl, hp.1⟩)
        · exact hb
    | none =>
      show assocUsersOk
        (processTagNames
          { tags := db.tags ++ [(⟨freshTagId db, u, normalizeName nm0, false⟩ : Tag)],
            bookmarks := db.bookmarks,
            assocs := db.assocs ++ [(⟨bid, freshTagId db⟩ : BookmarkTag)] } u bid rest)
      have hfr := freshTagId_gt db
      have hnmem : (⟨bid, freshTagId db⟩ : BookmarkTag) ∉ db.assocs := by
        intro hmem
        obtain ⟨t0, ht0m, ht0i⟩ := (href _ hmem).2
        have := hfr t0 ht0m
        simp only at ht0i
        omega
      apply processTagNames_preserves u bid rest
      · refine ⟨hbn, ?_, ?_, ?_⟩
        · rw [List.map_append]
          simp only [List.map_cons, List.map_nil]
          rw [List.nodup_append]
          refine ⟨htn, by simp, ?_⟩
          intro x hx hx'
          simp only [List.mem_singleton] at hx'
          subst hx'
          obtain ⟨t0, ht0m, ht0i⟩ := List.mem_map.mp hx
          have := hfr t0 ht0m
          omega
        · simp [List.nodup_append, han, hnmem]
        · intro a ha
          rcases List.mem_append.mp ha with h | h
          · obtain ⟨hbref, tref⟩ := href a h
            obtain ⟨t0, ht0m, ht0i⟩ := tref
            exact ⟨hbref, ⟨t0, List.mem_append.mpr (Or.inl ht0m), ht0i⟩⟩
          · simp only [List.mem_singleton] at h
            subst h
            obtain ⟨b', hb'm, hb'i, _⟩ := hb
            exact ⟨⟨b', hb'm, hb'i⟩, ⟨⟨freshTagId db, u, normalizeName nm0, false⟩,
              List.mem_append.mpr (Or.inr (by simp)), rfl⟩⟩
      · exact owner_ok_insert_fresh db u bid (normalizeName nm0) false hInv hbn
          (fun a ha => (href a ha).2) hb
      · exact hb

/-- `_process_tags` preserves the cross-user invariant when the bookmark
belongs to the requesting user (the serializer only ever operates on a
bookmark of the requesting user). -/
theorem process_tags_preserves_owner (db : DB) (u bid : Nat)
    (tag_ids : List Nat) (tag_names : List String)
    (hWF : WF db) (hInv : assocUsersOk db)
    (hb : ∃ b ∈ db.bookmarks, b.id = bid ∧ b.user = u) :
    assocUsersOk (process_tags db u bid tag_ids tag_names) := by
  obtain ⟨hbn, htn, han, href⟩ := hWF
  have hInv0 : assocUsersOk
      { db with assocs := db.assocs.filter (fun a => a.bookmark != bid) } :=
    owner_ok_filter db _ hInv
  have hWF0 : WF { db with assocs := db.assocs.filter (fun a => a.bookmark != bid) } := by
    refine ⟨hbn, htn, List.Nodup.filter _ han, ?_⟩
    intro a ha
    exact href a (List.mem_filter.mp ha).1
  have hts : ∀ tid ∈ List.map Tag.id
      (List.filter (fun t => tag_ids.contains t.id && t.user == u) db.tags),
      ∃ t ∈ db.tags, t.id = tid ∧ t.user = u := by
    intro tid htid
    obtain ⟨t, htf, hti⟩ := List.mem_map.mp htid
    obtain ⟨htm, hc⟩ := List.mem_filter.mp htf
    simp only [Bool.and_eq_true, beq_iff_eq] at hc
    exact ⟨t, htm, hti, hc.2⟩
  have hInv1 : assocUsersOk
      { tags := db.tags, bookmarks := db.bookmarks,
        assocs := db.assocs.filter (fun a => a.bookmark != bid) ++
          List.map (fun tid => (⟨bid, tid⟩ : BookmarkTag))
            (List.map Tag.id
              (List.filter (fun t => tag_ids.contains t.id && t.user == u) db.tags)) } :=
    owner_ok_insert_list
      { db with assocs := db.assocs.filter (fun a => a.bookmark != bid) } u bid
      (List.map Tag.id (List.filter (fun t => tag_ids.contains t.id && t.user == u) db.tags))
      hInv0 hbn htn hb hts
  have hWF1 : WF
      { tags := db.tags, bookmarks := db.bookmarks,
        assocs := db.assocs.filter (fun a => a.bookmark != bid) ++
          List.map (fun tid => (⟨bid, tid⟩ : BookmarkTag))
            (List.map Tag.id
              (List.filter (fun t => tag_ids.contains t.id && t.user == u) db.tags)) } := by
    refine ⟨hbn, htn, ?_, ?_⟩
    · rw [List.nodup_append]
      refine ⟨List.Nodup.filter _ han, ?_, ?_⟩
      · apply List.Nodup.map
        · intro x y hxy
          simpa [BookmarkTag.mk.injEq] using hxy
        · exact filter_owned_map_nodup db u _ htn
      · intro x hx hx'
        obtain ⟨tid, _, hxe⟩ := List.mem_map.mp hx'
        have hxb := (List.mem_filter.mp hx).2
        rw [← hxe] at hxb
        simp at hxb
    · intro a ha
      rcases List.mem_append.mp ha with h | h
      · exact href a (List.mem_filter.mp h).1
      · obtain ⟨tid, htid, hxe⟩ := List.mem_map.mp h
        obtain ⟨t, htm, hti, _⟩ := hts tid htid
        obtain ⟨b', hb'm, hb'i, _⟩ := hb
        subst hxe
        exact ⟨⟨b', hb'm, hb'i⟩, ⟨t, htm, hti⟩⟩
  by_cases hmn : tag_names.isEmpty = true
  · by_cases hmt : tag_ids.isEmpty = true
    · have hred : process_tags db u bid tag_ids tag_names =
          { db with assocs := db.assocs.filter (fun a => a.bookmark != bid) } := by
        simp only [process_tags, if_pos hmt, if_pos hmn]
      rw [hred]
      exact hInv0
    · have hred : process_tags db u bid tag_ids tag_names =
          { tags := db.tags, bookmarks := db.bookmarks,
            assocs := db.assocs.filter (fun a => a.bookmark != bid) ++
              List.map (fun tid => (⟨bid, tid⟩ : BookmarkTag))
                (List.map Tag.id
                  (List.filter (fun t => tag_ids.contains t.id && t.user == u) db.tags)) } := by
        simp only [process_tags, if_neg hmt, if_pos hmn]
      rw [hred]
      exact hInv1
  · by_cases hmt : tag_ids.isEmpty = true
    · have hred : process_tags db u bid tag_ids tag_names =
          processTagNames { db with assocs := db.assocs.filter (fun a => a.bookmark != bid) }
            u bid tag_names := by
        simp only [process_tags, if_pos hmt, if_neg hmn]
      rw [hred]
      exact processTagNames_preserves u bid tag_names _ hWF0 hInv0 hb
    · have hred : process_tags db u bid tag_ids tag_names =
          processTagNames
            { tags := db.tags, bookmarks := db.bookmarks,
              assocs := db.assocs.filter (fun a => a.bookmark != bid) ++
                List.map (fun tid => (⟨bid, tid⟩ : BookmarkTag))
                  (List.map Tag.id
                    (List.filter (fun t => tag_ids.contains t.id && t.user == u) db.tags)) }
            u bid tag_names := by
        simp only [process_tags, if_neg hmt, if_neg hmn]
      rw [hred]
      exact processTagNames_preserves u bid tag_names _ hWF1 hInv1 hb

/-- C9: every association-creating operation — `add_tag` (by id or by
name), bookmark create/update tag processing (`_process_tags`), and
`merge` — preserves the invariant that each `BookmarkTag` row links a
bookmark and a tag owned by the same user; no reachable state contains a
cross-user association. -/
theorem association_ops_preserve_owner (db : DB) (u bid tgt : Nat)
    (tagId : Option Nat) (tagName : Option String)
    (tag_ids : List Nat) (tag_names : List String) (srcIds : List Nat)
    (hWF : WF db) (hInv : assocUsersOk db) :
    assocUsersOk (add_tag db u bid tagId tagName).1 ∧
    ((∃ b ∈ db.bookmarks, b.id = bid ∧ b.user = u) →
        assocUsersOk (process_tags db u bid tag_ids tag_names)) ∧
    assocUsersOk (merge db u srcIds tgt).1 :=
  ⟨add_tag_preserves_owner db u bid tagId tagName hWF hInv,
   fun hb => process_tags_preserves_owner db u bid tag_ids tag_names hWF hInv hb,
   merge_preserves_owner db u srcIds tgt hWF hInv⟩

/-- C9 witness: the three operations instantiated on `c9db` (user 1,
bookmark 10, tags 1 and 2). -/
theorem association_ops_preserve_owner_witness :
    assocUsersOk (add_tag c9db 1 10 (some 2) none).1 ∧
    ((∃ b ∈ c9db.bookmarks, b.id = 10 ∧ b.user = 1) →
        assocUsersOk (process_tags c9db 1 10 [1, 2] ["new"])) ∧
    assocUsersOk (merge c9db 1 [1] 2).1 :=
  association_ops_preserve_owner c9db 1 10 2 (some 2) none [1, 2] ["new"] [1]
    (by decide) (by decide)
